import Mathlib

/-! Verification of the lunch-menu aggregator core.

The JavaScript source is shallowly embedded. JS strings are Lean String
values, the flat DOM sibling chain of the scraped page is a list of Node
records, and a local date-time is a day number (days since an epoch whose
day 0 falls on a Thursday, matching the Unix epoch convention used by
Date.getDay) together with a millisecond-of-day field. The regular
expressions of the source are hand-compiled deterministic matchers; each
pattern here is backtracking-free because adjacent character classes of
the original pattern are disjoint, so greedy matching is exact. -/

namespace LunchMenu

/-- Whitespace class used by the JS regexes and by String.prototype.trim
(the common members of the JS class; exotic Unicode spaces are omitted). -/
def jsWhitespace (c : Char) : Bool :=
  c == ' ' || c == '\t' || c == '\n' || c == '\r' || c == '\x0b' || c == '\x0c' || c == '\u00A0'

/-- JS String.prototype.trim on a character list. -/
def jsTrimL (l : List Char) : List Char :=
  ((l.dropWhile jsWhitespace).reverse.dropWhile jsWhitespace).reverse

/-- JS String.prototype.trim. -/
def jsTrimStr (s : String) : String := String.mk (jsTrimL s.data)

/-- JS String.prototype.toLowerCase (ASCII-faithful). -/
def lowerStr (s : String) : String := String.mk (s.data.map Char.toLower)

/-- One pass of text.replace of a whitespace run by a single space; the
flag records whether the previous character belonged to a run. -/
def collapseAux : Bool → List Char → List Char
  | _, [] => []
  | prevWs, c :: cs =>
    if jsWhitespace c then
      if prevWs then collapseAux true cs else ' ' :: collapseAux true cs
    else c :: collapseAux false cs

/-- text.trim().replace of every whitespace run by a single space, as the
scraper applies to each list item. -/
def collapseWs (s : String) : String := String.mk (collapseAux false (jsTrimL s.data))

/-- hay includes needle as a substring (JS String.prototype.includes). -/
def containsSub (needle : List Char) : List Char → Bool
  | [] => needle.isEmpty
  | c :: cs => needle.isPrefixOf (c :: cs) || containsSub needle cs

/-- JS String.prototype.includes. -/
def containsSubstr (hay needle : String) : Bool := containsSub needle.data hay.data

/-- DAYS table of the scraper, indexed by Date.getDay. -/
def DAYS : List String :=
  ["Sunday", "Monday", "Tuesday", "Wednesday", "Thursday", "Friday", "Saturday"]

/-- WEEKDAYS table of the Blavatnik module. -/
def WEEKDAYS : List String := ["Monday", "Tuesday", "Wednesday", "Thursday", "Friday"]

/-- The dash class of DAY_PREFIX_RE: en dash, em dash or hyphen. -/
def dashChar (c : Char) : Bool := c == '–' || c == '—' || c == '-'

/-- Matcher for DAY_PREFIX_RE, the anchored pattern day-name, optional
whitespace, one dash, optional whitespace. On success it returns the
captured day name and the remainder of the string after the greedy match. -/
def dayPrefixMatch (t : List Char) : Option (String × List Char) :=
  match DAYS.find? (fun d => d.data.isPrefixOf t) with
  | none => none
  | some d =>
    match (t.drop d.data.length).dropWhile jsWhitespace with
    | [] => none
    | c :: r2 => if dashChar c then some (d, r2.dropWhile jsWhitespace) else none

/-- DAY_PREFIX_RE.test. -/
def dayPrefixTest (t : String) : Bool := (dayPrefixMatch t.data).isSome

/-- Case-insensitive literal kcal at the head of the list; returns the
remainder on success. -/
def matchKcal : List Char → Option (List Char)
  | k :: c :: a :: l :: rest =>
    if k.toLower == 'k' && c.toLower == 'c' && a.toLower == 'a' && l.toLower == 'l' then
      some rest
    else none
  | _ => none

/-- Digit or comma, the thousands-separator class of stripCalories. -/
def digitComma (c : Char) : Bool := c.isDigit || c == ','

/-- Matcher for the first stripCalories pattern: whitespace, dash,
whitespace, optional tilde, digits with separators, whitespace, kcal.
Returns the remainder after the match. -/
def matchR1 (l : List Char) : Option (List Char) :=
  match l.dropWhile jsWhitespace with
  | [] => none
  | c :: l2 =>
    if dashChar c then
      match (match l2.dropWhile jsWhitespace with
             | '~' :: r => r
             | r => r) with
      | [] => none
      | d :: l5 =>
        if d.isDigit then
          matchKcal ((l5.dropWhile digitComma).dropWhile jsWhitespace)
        else none
    else none

/-- Matcher for the second stripCalories pattern: whitespace, optional
open paren, whitespace, optional tilde, digits with separators,
whitespace, kcal, whitespace, optional close paren. -/
def matchR2 (l : List Char) : Option (List Char) :=
  match (match l.dropWhile jsWhitespace with
         | '(' :: r => r.dropWhile jsWhitespace
         | r => r) with
  | [] => none
  | c0 :: l3 =>
    match (match c0 :: l3 with
           | '~' :: r => r
           | r => r) with
    | [] => none
    | d :: l4 =>
      if d.isDigit then
        match matchKcal ((l4.dropWhile digitComma).dropWhile jsWhitespace) with
        | none => none
        | some l6 =>
          match l6.dropWhile jsWhitespace with
          | ')' :: r => some r
          | l7 => some l7
      else none

/-- Global regex replacement by the empty string: scan left to right,
deleting each leftmost match and resuming after it. The fuel argument is
the length of the scanned list; every match of the two calorie patterns
consumes at least one character, so the fuel never runs out. -/
def replaceScanF (m : List Char → Option (List Char)) : Nat → List Char → List Char
  | _, [] => []
  | 0, l => l
  | fuel + 1, c :: cs =>
    match m (c :: cs) with
    | some suffix => replaceScanF m fuel suffix
    | none => c :: replaceScanF m fuel cs

/-- text.replace(pattern, empty) with the global flag. -/
def replaceScan (m : List Char → Option (List Char)) (l : List Char) : List Char :=
  replaceScanF m l.length l

/-- stripCalories of the scraper: delete both calorie patterns, then trim. -/
def stripCalories (s : String) : String :=
  String.mk (jsTrimL (replaceScan matchR2 (replaceScan matchR1 s.data)))

/-- A local date-time: a day number (day 0 is a Thursday) and the
milliseconds elapsed since that local midnight. -/
structure LocalDateTime where
  day : Int
  msOfDay : Nat
deriving DecidableEq, Repr

/-- Date.prototype.getDay: 0 is Sunday through 6 is Saturday. -/
def jsGetDay (d : LocalDateTime) : Int := (d.day + 4) % 7

/-- getWeekMonday of the Blavatnik module: shift by minus six days on a
Sunday and by one minus getDay otherwise, then zero the time of day. -/
def getWeekMonday (d : LocalDateTime) : LocalDateTime :=
  let day := jsGetDay d
  let diff : Int := if day = 0 then -6 else 1 - day
  ⟨d.day + diff, 0⟩

/-- A single day of the Blavatnik menu, the meat, veg and side fields of
the parsed payload; the empty string stands for the JS falsy value. -/
structure DayMenu where
  meat : String
  veg : String
  side : String
deriving DecidableEq, Repr

/-- The parsed Blavatnik cache payload. The menu field is the weekday
lookup of the JS object; absent keys are none. -/
structure BlavPayload where
  weekCommencing : Option LocalDateTime
  menu : String → Option DayMenu

/-- State of a persisted cache file: none is an absent file, some none is
a file whose JSON fails to parse, some (some p) parses to p. -/
abbrev CacheState (α : Type) := Option (Option α)

/-- The freshness test inside fetchBlavatnik: fresh exactly when the file
parses, carries a weekCommencing date, and that date has the same
calendar day (toDateString comparison) as getWeekMonday of now. -/
def blavFresh (file : CacheState BlavPayload) (now : LocalDateTime) : Bool :=
  match file with
  | some (some p) =>
    match p.weekCommencing with
    | some wc => decide (wc.day = (getWeekMonday now).day)
    | none => false
  | _ => false

/-- formatDayMenu: the numbered lines 1 meat, 2 veg, 3 side, each emitted
only when the field is a truthy (non-empty) string. -/
def formatDayMenu : Option DayMenu → List String
  | none => []
  | some m =>
    (if m.meat = "" then [] else ["1. " ++ m.meat]) ++
    (if m.veg = "" then [] else ["2. " ++ m.veg]) ++
    (if m.side = "" then [] else ["3. " ++ m.side])

/-- The fallback eligibility test of fetchBlavatnik: the day is present
and its meat or veg field is truthy (the side field is not consulted). -/
def hasMain (m : Option DayMenu) : Bool :=
  match m with
  | none => false
  | some d => decide (d.meat ≠ "") || decide (d.veg ≠ "")

/-- Array.prototype.indexOf, minus one when absent. -/
def jsIndexOf : List String → String → Int
  | [], _ => -1
  | y :: rest, x =>
    if y = x then 0
    else
      let r := jsIndexOf rest x
      if r = -1 then -1 else r + 1

/-- Array.prototype.find with the element index compared against a JS
index value: the first element at position strictly above idx satisfying
the predicate (the counter starts at the second argument). -/
def jsFindAfter (p : String → Bool) (idx : Int) : Int → List String → Option String
  | _, [] => none
  | i, d :: rest =>
    if idx < i ∧ p d = true then some d else jsFindAfter p idx (i + 1) rest

/-- The read path of fetchBlavatnik on a parsed payload: the lines for
today if non-empty, otherwise the forward-then-wrapping fallback day
labelled by a Next available line. -/
def blavRead (menu : String → Option DayMenu) (today : String) : List String :=
  if formatDayMenu (menu today) ≠ [] then formatDayMenu (menu today)
  else
    match (jsFindAfter (fun d => hasMain (menu d)) (jsIndexOf WEEKDAYS today) 0 WEEKDAYS).orElse
        (fun _ => WEEKDAYS.find? (fun d => hasMain (menu d))) with
    | none => []
    | some d => ("_Next available: " ++ d ++ "_") :: formatDayMenu (menu d)

/-- The cache file that the second read of fetchBlavatnik sees: the
original file when fresh, the post-refresh file otherwise. -/
def blavFile (fb fa : CacheState BlavPayload) (now : LocalDateTime) : CacheState BlavPayload :=
  if blavFresh fb now then fb else fa

/-- fetchBlavatnik: freshness check on the file fb, refresh replacing the
file state by fa when stale, then a guarded read whose parse failure is
caught and returns the empty list. -/
def fetchBlavatnik (fb fa : CacheState BlavPayload) (now : LocalDateTime)
    (today : String) : List String :=
  match blavFile fb fa now with
  | none => []
  | some none => []
  | some (some p) => blavRead p.menu today

/-- The parsed Schwarzman cache payload; the menu is the category list in
Object.entries order. -/
structure SchwPayload where
  weekCommencing : Option LocalDateTime
  menu : List (String × List String)
deriving DecidableEq, Repr

/-- The freshness test inside fetchSchwarzman, identical in shape to the
Blavatnik one. -/
def schwFresh (file : CacheState SchwPayload) (now : LocalDateTime) : Bool :=
  match file with
  | some (some p) =>
    match p.weekCommencing with
    | some wc => decide (wc.day = (getWeekMonday now).day)
    | none => false
  | _ => false

/-- SKIP_CATEGORIES of the Schwarzman module. -/
def SKIP_CATEGORIES : List String := ["toppings", "sauces & pickles"]

/-- formatMenu of the Schwarzman module: the fixed header line followed,
for every non-empty category not on the skip list, by a blank line, a
bold category line and one bullet per item. -/
def formatMenu (menuData : List (String × List String)) : List String :=
  "*1 Base + 1 Protein + 2 Sides*" ::
    (menuData.map (fun ci =>
      if ci.2 = [] then []
      else if SKIP_CATEGORIES.contains (lowerStr ci.1) then []
      else "" :: ("*" ++ ci.1 ++ "*") :: ci.2.map (fun item => "• " ++ item))).flatten

/-- The cache file that the second read of fetchSchwarzman sees. -/
def schwFile (fb fa : CacheState SchwPayload) (now : LocalDateTime) : CacheState SchwPayload :=
  if schwFresh fb now then fb else fa

/-- fetchSchwarzman: freshness check, optional refresh, then a guarded
read returning the formatted menu; the weekday argument is ignored. -/
def fetchSchwarzman (fb fa : CacheState SchwPayload) (now : LocalDateTime)
    (_today : String) : List String :=
  match schwFile fb fa now with
  | none => []
  | some none => []
  | some (some p) => formatMenu p.menu

/-- Element kinds distinguished by the scraper traversal. -/
inductive Tag where
  | h2
  | h3
  | p
  | ul
  | other
deriving DecidableEq, Repr

/-- One element of the flat sibling chain under the page body: its tag,
its text content, and for list elements the texts of its direct items. -/
structure Node where
  tag : Tag
  text : String
  items : List String
deriving DecidableEq, Repr

/-- The anchor test of parseExeterSection: an h2 whose trimmed text
includes the section name as a substring. -/
def isAnchor (n : Node) (name : String) : Bool :=
  decide (n.tag = Tag.h2) && containsSubstr (jsTrimStr n.text) name

/-- The each-loop over h2 elements: the siblings after the first anchor. -/
def findSection (name : String) : List Node → Option (List Node)
  | [] => none
  | n :: rest => if isAnchor n name then some rest else findSection name rest

/-- The node slice a section contributes: everything after the anchor up
to, and excluding, the next h2; the empty slice when no anchor matches. -/
def sectionSlice (nodes : List Node) (name : String) : List Node :=
  match findSection name nodes with
  | none => []
  | some rest => rest.takeWhile (fun n => !decide (n.tag = Tag.h2))

/-- SKIP_SECTIONS_RE.test: case-insensitive exact match of panini. -/
def skipSectionTest (t : String) : Bool := decide (lowerStr t = "panini")

/-- Search for the second literal after the first one with no line
terminator in between (the dot of the regex does not cross newlines). -/
def findNoNewline (needle : List Char) : List Char → Bool
  | [] => needle.isPrefixOf []
  | c :: cs =>
    needle.isPrefixOf (c :: cs) || (!(c == '\n' || c == '\r') && findNoNewline needle cs)

/-- First alternative of SKIP_LINES_RE: please note, then subject to
change on the same line, anywhere in the lowercased text. -/
def skipLinePart1 : List Char → Bool
  | [] => false
  | c :: cs =>
    (("please note".data).isPrefixOf (c :: cs) &&
      findNoNewline ("subject to change".data) ((c :: cs).drop ("please note".data).length)) ||
    skipLinePart1 cs

/-- SKIP_LINES_RE.test. -/
def skipLineTest (t : String) : Bool :=
  skipLinePart1 (t.data.map Char.toLower) ||
    containsSub ("selection of sides and salads".data) (t.data.map Char.toLower)

/-- Whether the next sibling is a list element (the lookahead of the
implicit-heading heuristic); false at the end of the input. -/
def nextIsUl : List Node → Bool
  | [] => false
  | m :: _ => decide (m.tag = Tag.ul)

/-- The isHeading expression of the traversal: an h3, or a paragraph
whose trimmed text is short, bullet-free, day-prefix-free and followed
by a list. -/
def isHeadingNode (n : Node) (rest : List Node) : Bool :=
  decide (n.tag = Tag.h3) ||
  (decide (n.tag = Tag.p) &&
    decide ((jsTrimStr n.text).length < 60) &&
    !(containsSubstr (jsTrimStr n.text) "•") &&
    !(dayPrefixTest (jsTrimStr n.text)) &&
    nextIsUl rest)

/-- Emission of one list item: collapse whitespace, then a day-prefixed
item is kept only on its own day with the prefix and calories stripped,
and an unprefixed item is always kept with calories stripped. -/
def processListItem (today : String) (raw : String) : Option String :=
  match dayPrefixMatch (collapseWs raw).data with
  | some (d, rest) =>
    if d = today then some ("• " ++ stripCalories (String.mk rest)) else none
  | none => some ("• " ++ stripCalories (collapseWs raw))

/-- The classification loop over a section slice: the skipping flag set
by a skip-section heading discards nodes until the next heading. -/
def classify (today : String) : Bool → List Node → List String
  | _, [] => []
  | skipping, n :: rest =>
    if n.tag = Tag.h3 ∨ n.tag = Tag.p then
      if jsTrimStr n.text = "" then classify today skipping rest
      else
        if isHeadingNode n rest = true ∧ skipSectionTest (jsTrimStr n.text) = true then
          classify today true rest
        else if isHeadingNode n rest = true then
          ("\n*" ++ jsTrimStr n.text ++ "*") :: classify today false rest
        else if skipping = false ∧ skipLineTest (jsTrimStr n.text) = false then
          jsTrimStr n.text :: classify today skipping rest
        else classify today skipping rest
    else if n.tag = Tag.ul then
      if skipping = true then classify today skipping rest
      else n.items.filterMap (processListItem today) ++ classify today skipping rest
    else classify today skipping rest

/-- parseExeterSection: extract the section slice and classify it with
the skipping flag initially clear. -/
def parseExeterSection (nodes : List Node) (name today : String) : List String :=
  classify today false (sectionSlice nodes name)

/-- One registered menu source of the aggregator; a rejected fetch is an
error value. -/
structure Source where
  name : String
  info : String
  fetch : String → Except String (List String)

/-- The loop body of getTodaysMenu: append a titled block for a source
with non-empty lines, swallow errors, and record whether anything was
contributed. -/
def aggStep (today : String) (acc : String × Bool) (s : Source) : String × Bool :=
  match s.fetch today with
  | .ok items =>
    if items.isEmpty then acc
    else (acc.1 ++ "\n*--- " ++ s.name ++ " ---*\n" ++ s.info ++ "\n" ++
      String.intercalate "\n" items ++ "\n", true)
  | .error _ => acc

/-- getTodaysMenu: the dated header, one block per contributing source in
registration order, and a notice when nothing was contributed. -/
def getTodaysMenu (sources : List Source) (today dateStr : String) : String :=
  let r := sources.foldl (aggStep today) ("🍽 *Lunch Menu*\n📅 " ++ dateStr ++ "\n", false)
  if r.2 then r.1 else r.1 ++ "\nNo menu items found for today."

/-- Specification-side block of one source: empty on error or on an empty
line list, the titled block otherwise. -/
def sourceBlock (today : String) (s : Source) : String :=
  match s.fetch today with
  | .ok items =>
    if items.isEmpty then ""
    else "\n*--- " ++ s.name ++ " ---*\n" ++ s.info ++ "\n" ++
      String.intercalate "\n" items ++ "\n"
  | .error _ => ""

/-- Specification-side contribution test of one source. -/
def contributes (today : String) (s : Source) : Bool :=
  match s.fetch today with
  | .ok items => !items.isEmpty
  | .error _ => false

/-- Concatenation of a list of strings. -/
def strConcat (l : List String) : String := l.foldr (fun a b => a ++ b) ""

/-! Helper lemmas. -/

theorem dropWhile_head_false {α} (p : α → Bool) :
    ∀ (l : List α) b r, l.dropWhile p = b :: r → p b = false := by
  intro l
  induction l with
  | nil => intro b r h; simp [List.dropWhile] at h
  | cons c cs ih =>
    intro b r h
    rw [List.dropWhile_cons] at h
    split at h
    · exact ih b r h
    · next hc =>
      cases h
      simp only [Bool.not_eq_true] at hc
      exact hc

theorem dropWhile_dropWhile {α} (p : α → Bool) (l : List α) :
    (l.dropWhile p).dropWhile p = l.dropWhile p := by
  cases h : l.dropWhile p with
  | nil => simp
  | cons b r =>
    have hb := dropWhile_head_false p l b r h
    rw [List.dropWhile_cons, hb]
    simp

theorem jsTrimL_idem (l : List Char) : jsTrimL (jsTrimL l) = jsTrimL l := by
  unfold jsTrimL
  set x := l.dropWhile jsWhitespace with hx
  set y := x.reverse.dropWhile jsWhitespace with hy
  have h1 : y.reverse.dropWhile jsWhitespace = y.reverse := by
    cases hyr : y.reverse with
    | nil => simp
    | cons a as =>
      have hsplit : x.reverse = x.reverse.takeWhile jsWhitespace ++ y := by
        rw [hy, List.takeWhile_append_dropWhile]
      have hxa : x = a :: (as ++ (x.reverse.takeWhile jsWhitespace).reverse) := by
        have h2 := congrArg List.reverse hsplit
        rw [List.reverse_reverse, List.reverse_append, hyr] at h2
        simpa using h2
      have ha : jsWhitespace a = false :=
        dropWhile_head_false jsWhitespace l a _ (by rw [← hx, hxa])
      rw [List.dropWhile_cons, ha]
      simp
  rw [h1, List.reverse_reverse, hy, dropWhile_dropWhile]

/-! Claim theorems. -/

theorem getWeekMonday_eq (d : LocalDateTime) :
    getWeekMonday d = ⟨d.day - (d.day + 3) % 7, 0⟩ := by
  have h : getWeekMonday d =
      ⟨d.day + (if (d.day + 4) % 7 = 0 then -6 else 1 - (d.day + 4) % 7), 0⟩ := rfl
  rw [h]
  simp only [LocalDateTime.mk.injEq, and_true]
  split_ifs with h0 <;> omega

/-- Claim C1: getWeekMonday returns the Monday at local midnight of the
week containing the argument; on a Sunday the result is the preceding
Monday, six days earlier, and every day of that Monday-to-Sunday week
yields the same result. -/
theorem getWeekMonday_spec (d : LocalDateTime) :
    (getWeekMonday d).msOfDay = 0 ∧
    jsGetDay (getWeekMonday d) = 1 ∧
    (getWeekMonday d).day ≤ d.day ∧ d.day ≤ (getWeekMonday d).day + 6 ∧
    (jsGetDay d = 0 → (getWeekMonday d).day = d.day - 6) ∧
    (∀ e : LocalDateTime, (getWeekMonday d).day ≤ e.day → e.day ≤ (getWeekMonday d).day + 6 →
      getWeekMonday e = getWeekMonday d) := by
  have hd := getWeekMonday_eq d
  refine ⟨by rw [hd], ?_, ?_, ?_, ?_, ?_⟩
  · rw [hd]; unfold jsGetDay; dsimp only; omega
  · rw [hd]; dsimp only; omega
  · rw [hd]; dsimp only; omega
  · intro h; unfold jsGetDay at h; rw [hd]; dsimp only; omega
  · intro e h1 h2
    rw [getWeekMonday_eq e, hd]
    rw [hd] at h1 h2
    dsimp only at h1 h2
    simp only [LocalDateTime.mk.injEq, and_true]
    omega

/-- Witness for C1: day number 3 is a Sunday, its week Monday is day
number minus 3, and the Thursday of the same week (day 0) agrees. -/
theorem getWeekMonday_spec_witness :
    jsGetDay ⟨3, 500⟩ = 0 ∧ (getWeekMonday ⟨3, 500⟩).day = 3 - 6 ∧
      getWeekMonday ⟨0, 250⟩ = getWeekMonday ⟨3, 500⟩ := by
  have h := getWeekMonday_spec ⟨3, 500⟩
  exact ⟨by decide, h.2.2.2.2.1 (by decide), h.2.2.2.2.2 ⟨0, 250⟩ (by decide) (by decide)⟩

/-- Claim C2: the Blavatnik cache is fresh, and no refresh is triggered,
exactly when the persisted payload parses, stores a week-commencing
date, and that date equals getWeekMonday of now as a calendar day; a
parse failure is therefore stale, and fetchBlavatnik on an unparseable
file behaves as a read of the refreshed file rather than raising. -/
theorem blavatnik_fresh_iff (file : CacheState BlavPayload) (now : LocalDateTime) :
    (blavFresh file now = true ↔
      ∃ p wc, file = some (some p) ∧ p.weekCommencing = some wc ∧
        wc.day = (getWeekMonday now).day) ∧
    (∀ fa t, fetchBlavatnik (some none) fa now t = fetchBlavatnik fa fa now t) := by
  refine ⟨⟨?_, ?_⟩, ?_⟩
  · intro h
    match file with
    | none => simp [blavFresh] at h
    | some none => simp [blavFresh] at h
    | some (some p) =>
      match hw : p.weekCommencing with
      | none => rw [blavFresh, hw] at h; cases h
      | some wc =>
        rw [blavFresh, hw] at h
        exact ⟨p, wc, rfl, hw, of_decide_eq_true h⟩
  · rintro ⟨p, wc, rfl, hw, hdq⟩
    rw [blavFresh, hw]
    exact decide_eq_true hdq
  · intro fa t
    have h1 : blavFile (some none) fa now = fa := by
      rw [blavFile]
      simp [blavFresh]
    have h2 : blavFile fa fa now = fa := by
      rw [blavFile]
      split <;> rfl
    unfold fetchBlavatnik
    rw [h1, h2]

/-- Claim C8 counterexample: one strip of 3(1kcal)kcal deletes the inner
pattern and uncovers 3kcal, which a second strip deletes entirely, so
stripCalories is not idempotent. -/
theorem stripCalories_not_idempotent :
    stripCalories "3(1kcal)kcal" = "3kcal" ∧
      stripCalories (stripCalories "3(1kcal)kcal") = "" ∧
      stripCalories (stripCalories "3(1kcal)kcal") ≠ stripCalories "3(1kcal)kcal" := by
  decide

/-- Claim C8 amended: stripCalories is idempotent on every string whose
stripped form contains no further occurrence of either calorie pattern
(deleting a match can uncover a new occurrence, as the counterexample
shows); the second application then only re-trims a trimmed string. -/
theorem stripCalories_idem_of_stable (s : String)
    (h1 : replaceScan matchR1 (stripCalories s).data = (stripCalories s).data)
    (h2 : replaceScan matchR2 (stripCalories s).data = (stripCalories s).data) :
    stripCalories (stripCalories s) = stripCalories s := by
  have hd : (stripCalories s).data = jsTrimL (replaceScan matchR2 (replaceScan matchR1 s.data)) :=
    rfl
  rw [hd] at h1 h2
  show String.mk (jsTrimL (replaceScan matchR2 (replaceScan matchR1 (stripCalories s).data))) = _
  rw [hd, h1, h2, jsTrimL_idem]
  rfl

/-- Witness for amended C8: a typical menu line is stable after one
strip, so a second strip changes nothing. -/
theorem stripCalories_idem_of_stable_witness :
    stripCalories (stripCalories "Soup - 120kcal") = stripCalories "Soup - 120kcal" :=
  stripCalories_idem_of_stable "Soup - 120kcal" (by decide) (by decide)

theorem strConcat_cons (a : String) (l : List String) :
    strConcat (a :: l) = a ++ strConcat l := rfl

theorem aggStep_eq (today : String) (acc : String × Bool) (s : Source) :
    aggStep today acc s = (acc.1 ++ sourceBlock today s, acc.2 || contributes today s) := by
  cases hf : s.fetch today with
  | error e => simp [aggStep, sourceBlock, contributes, hf, String.append_empty]
  | ok items =>
    cases items with
    | nil => simp [aggStep, sourceBlock, contributes, hf, String.append_empty]
    | cons i is => simp [aggStep, sourceBlock, contributes, hf, String.append_assoc]

theorem aggFold (today : String) (sources : List Source) :
    ∀ (acc : String) (b : Bool),
      sources.foldl (aggStep today) (acc, b) =
        (acc ++ strConcat (sources.map (sourceBlock today)),
          b || sources.any (contributes today)) := by
  induction sources with
  | nil => intro acc b; simp [strConcat, String.append_empty]
  | cons s ss ih =>
    intro acc b
    rw [List.foldl_cons, aggStep_eq, ih, List.map_cons, List.any_cons, strConcat_cons]
    simp [String.append_assoc, Bool.or_assoc]

/-- Claim C6: getTodaysMenu is the dated header followed, in registration
order, by the titled block of every source whose fetch succeeded with a
non-empty list (an error or an empty list contributes the empty block
and never aborts the remaining sources), plus a no-items notice when no
source contributed. -/
theorem aggregator_compose (sources : List Source) (today dateStr : String) :
    getTodaysMenu sources today dateStr =
      ("🍽 *Lunch Menu*\n📅 " ++ dateStr ++ "\n") ++
        strConcat (sources.map (sourceBlock today)) ++
        (if sources.any (contributes today) then "" else "\nNo menu items found for today.") := by
  simp only [getTodaysMenu]
  rw [aggFold today sources ("🍽 *Lunch Menu*\n📅 " ++ dateStr ++ "\n") false]
  simp only [Bool.false_or]
  cases h : sources.any (contributes today) with
  | false => simp [h]
  | true => simp [h, String.append_empty]

/-- Claim C9: whenever the file that the final read of fetchSchwarzman
sees parses successfully, the result is non-empty, starts with the fixed
header line, and is independent of the weekday argument. -/
theorem schwarzman_header (fb fa : CacheState SchwPayload) (now : LocalDateTime)
    (t t' : String) (p : SchwPayload) (h : schwFile fb fa now = some (some p)) :
    (fetchSchwarzman fb fa now t).head? = some "*1 Base + 1 Protein + 2 Sides*" ∧
      fetchSchwarzman fb fa now t ≠ [] ∧
      fetchSchwarzman fb fa now t = fetchSchwarzman fb fa now t' := by
  unfold fetchSchwarzman
  rw [h]
  refine ⟨rfl, ?_, rfl⟩
  simp [formatMenu]

/-- Witness for C9: a fresh cache whose only category is on the skip
list still yields the header line, and Monday and Friday agree. -/
theorem schwarzman_header_witness :
    (fetchSchwarzman (some (some ⟨some ⟨4, 0⟩, [("Toppings", ["Crispy Onions"])]⟩)) none
        ⟨6, 123⟩ "Monday").head? = some "*1 Base + 1 Protein + 2 Sides*" ∧
      fetchSchwarzman (some (some ⟨some ⟨4, 0⟩, [("Toppings", ["Crispy Onions"])]⟩)) none
        ⟨6, 123⟩ "Monday" =
        fetchSchwarzman (some (some ⟨some ⟨4, 0⟩, [("Toppings", ["Crispy Onions"])]⟩)) none
        ⟨6, 123⟩ "Friday" := by
  have h := schwarzman_header (some (some ⟨some ⟨4, 0⟩, [("Toppings", ["Crispy Onions"])]⟩))
    none ⟨6, 123⟩ "Monday" "Friday" ⟨some ⟨4, 0⟩, [("Toppings", ["Crispy Onions"])]⟩ (by decide)
  exact ⟨h.1, h.2.2⟩

theorem dropWhile_all_append {α} (p : α → Bool) (w l : List α)
    (hw : ∀ x ∈ w, p x = true) (hl : ∀ x ∈ l.head?, p x = false) :
    (w ++ l).dropWhile p = l := by
  induction w with
  | nil =>
    cases l with
    | nil => rfl
    | cons a as =>
      have ha : p a = false := hl a rfl
      rw [List.nil_append, List.dropWhile_cons, if_neg (by simp [ha])]
  | cons c cs ih =>
    have hc : p c = true := hw c (List.mem_cons_self c cs)
    rw [List.cons_append, List.dropWhile_cons, if_pos hc]
    exact ih (fun x hx => hw x (List.mem_cons_of_mem c hx))

theorem find?_eq_some_of_unique {α} (p : α → Bool) :
    ∀ (l : List α) (d : α), d ∈ l → p d = true → (∀ x ∈ l, p x = true → x = d) →
      l.find? p = some d := by
  intro l
  induction l with
  | nil => intro d hd _ _; cases hd
  | cons a as ih =>
    intro d hd hp huniq
    by_cases ha : p a = true
    · rw [List.find?_cons_of_pos _ ha]
      exact congrArg some (huniq a (List.mem_cons_self a as) ha)
    · rw [List.find?_cons_of_neg _ ha]
      refine ih d ?_ hp (fun x hx hpx => huniq x (List.mem_cons_of_mem a hx) hpx)
      rcases List.mem_cons.mp hd with h | h
      · exact absurd (h ▸ hp) ha
      · exact h

theorem daysNoPrefix :
    ∀ a ∈ DAYS, ∀ b ∈ DAYS, a ≠ b → a.data.isPrefixOf b.data = false := by decide

theorem day_prefix_unique (t : List Char) (d : String) (hd : d ∈ DAYS)
    (hp : d.data.isPrefixOf t = true) :
    ∀ x ∈ DAYS, x.data.isPrefixOf t = true → x = d := by
  intro x hx hpx
  by_contra hne
  rw [ List.isPrefixOf_iff_prefix] at hp hpx
  rcases le_total x.data.length d.data.length with hle | hle
  · have hpre := List.prefix_of_prefix_length_le hpx hp hle
    have h2 := daysNoPrefix x hx d hd hne
    rw [← List.isPrefixOf_iff_prefix, h2] at hpre
    simp at hpre
  · have hpre := List.prefix_of_prefix_length_le hp hpx hle
    have h2 := daysNoPrefix d hd x hx (fun hdx => hne hdx.symm)
    rw [← List.isPrefixOf_iff_prefix, h2] at hpre
    simp at hpre

theorem dash_not_ws (c : Char) (h : dashChar c = true) : jsWhitespace c = false := by
  unfold dashChar at h
  simp only [Bool.or_eq_true, beq_iff_eq] at h
  rcases h with (h | h) | h <;> subst h <;> decide

/-- Specification-side reading of DAY_PREFIX_RE: the text decomposes into
a day name from the table, whitespace, one dash, maximal whitespace (the
remainder does not begin with whitespace), and the remainder. -/
def DayPrefixDecomp (t : List Char) (d : String) (rest : List Char) : Prop :=
  d ∈ DAYS ∧ ∃ w1 c w2, dashChar c = true ∧ (∀ x ∈ w1, jsWhitespace x = true) ∧
    (∀ x ∈ w2, jsWhitespace x = true) ∧ (∀ x ∈ rest.head?, jsWhitespace x = false) ∧
    t = d.data ++ w1 ++ c :: (w2 ++ rest)

theorem dayPrefixMatch_sound (t : List Char) (d : String) (rest : List Char)
    (h : dayPrefixMatch t = some (d, rest)) : DayPrefixDecomp t d rest := by
  unfold dayPrefixMatch at h
  cases hf : DAYS.find? (fun x => x.data.isPrefixOf t) with
  | none => rw [hf] at h; cases h
  | some d0 =>
    rw [hf] at h
    dsimp only at h
    have hmem : d0 ∈ DAYS := List.mem_of_find?_eq_some hf
    have hpre : d0.data.isPrefixOf t = true := by
      have hp0 := List.find?_some hf
      simpa using hp0
    rw [ List.isPrefixOf_iff_prefix] at hpre
    obtain ⟨u, hu⟩ := hpre
    have hdrop : t.drop d0.data.length = u := by rw [← hu, List.drop_left]
    rw [hdrop] at h
    cases hu2 : u.dropWhile jsWhitespace with
    | nil => rw [hu2] at h; cases h
    | cons c r2 =>
      rw [hu2] at h
      dsimp only at h
      by_cases hdash : dashChar c = true
      · rw [if_pos hdash, Option.some.injEq, Prod.mk.injEq] at h
        obtain ⟨rfl, rfl⟩ := h
        refine ⟨hmem, u.takeWhile jsWhitespace, c, r2.takeWhile jsWhitespace, hdash,
          fun x hx => List.mem_takeWhile_imp hx, fun x hx => List.mem_takeWhile_imp hx,
          ?_, ?_⟩
        · intro x hx
          cases hr : r2.dropWhile jsWhitespace with
          | nil => rw [hr] at hx; cases hx
          | cons b bs =>
            rw [hr] at hx
            rw [Option.mem_def, List.head?_cons, Option.some.injEq] at hx
            exact hx ▸ dropWhile_head_false jsWhitespace r2 b bs hr
        · rw [← hu, List.append_assoc]
          congr 1
          rw [List.takeWhile_append_dropWhile, ← hu2, List.takeWhile_append_dropWhile]
      · rw [if_neg hdash] at h; cases h

theorem dayPrefixMatch_complete (t : List Char) (d : String) (rest : List Char)
    (h : DayPrefixDecomp t d rest) : dayPrefixMatch t = some (d, rest) := by
  obtain ⟨hmem, w1, c, w2, hdash, hw1, hw2, hrest, ht⟩ := h
  have hcw : jsWhitespace c = false := dash_not_ws c hdash
  have hpre : d.data.isPrefixOf t = true := by
    rw [ List.isPrefixOf_iff_prefix]
    exact ⟨w1 ++ c :: (w2 ++ rest), by rw [ht, List.append_assoc]⟩
  have hfind : DAYS.find? (fun x => x.data.isPrefixOf t) = some d :=
    find?_eq_some_of_unique _ DAYS d hmem hpre (day_prefix_unique t d hmem hpre)
  have hdrop : t.drop d.data.length = w1 ++ c :: (w2 ++ rest) := by
    rw [ht, List.append_assoc, List.drop_left]
  have hdw1 : (w1 ++ c :: (w2 ++ rest)).dropWhile jsWhitespace = c :: (w2 ++ rest) := by
    refine dropWhile_all_append jsWhitespace w1 _ hw1 ?_
    intro x hx
    rw [Option.mem_def, List.head?_cons, Option.some.injEq] at hx
    exact hx ▸ hcw
  have hdw2 : (w2 ++ rest).dropWhile jsWhitespace = rest :=
    dropWhile_all_append jsWhitespace w2 rest hw2 hrest
  unfold dayPrefixMatch
  rw [hfind]
  dsimp only
  rw [hdrop, hdw1]
  dsimp only
  rw [if_pos hdash, hdw2]

/-- Claim C4: a whitespace-collapsed list item carrying a weekday dash
prefix is emitted, bullet-prefixed with the prefix and the calorie text
stripped, exactly when the captured weekday equals the current weekday;
an item whose text does not match the day prefix is always emitted, with
the calorie text stripped. -/
theorem exeter_day_scoped_items (today raw : String) :
    (∀ d rest, DayPrefixDecomp (collapseWs raw).data d rest →
      processListItem today raw =
        if d = today then some ("• " ++ stripCalories (String.mk rest)) else none) ∧
    ((∀ d rest, ¬ DayPrefixDecomp (collapseWs raw).data d rest) →
      processListItem today raw = some ("• " ++ stripCalories (collapseWs raw))) := by
  constructor
  · intro d rest hdec
    have hm := dayPrefixMatch_complete _ _ _ hdec
    unfold processListItem
    rw [hm]
  · intro hno
    unfold processListItem
    cases hm : dayPrefixMatch (collapseWs raw).data with
    | none => rfl
    | some pr =>
      exfalso
      refine hno pr.1 pr.2 (dayPrefixMatch_sound _ _ _ ?_)
      rw [hm]

/-- Witness for C4: the item Monday dash Pasta is emitted as a bullet on
Monday and suppressed on Tuesday. -/
theorem exeter_day_scoped_items_witness :
    processListItem "Monday" "Monday – Pasta" = some "• Pasta" ∧
      processListItem "Tuesday" "Monday – Pasta" = none := by
  have hdec : DayPrefixDecomp (collapseWs "Monday – Pasta").data "Monday" "Pasta".data :=
    ⟨by decide, [' '], '–', [' '], by decide, by decide, by decide, by decide, by decide⟩
  constructor
  · rw [(exeter_day_scoped_items "Monday" "Monday – Pasta").1 "Monday" "Pasta".data hdec]
    decide
  · rw [(exeter_day_scoped_items "Tuesday" "Monday – Pasta").1 "Monday" "Pasta".data hdec]
    decide

theorem jsIndexOf_ge (l : List String) (x : String) : -1 ≤ jsIndexOf l x := by
  induction l with
  | nil => simp [jsIndexOf]
  | cons y rest ih =>
    simp only [jsIndexOf]
    split_ifs with h1 h2 <;> omega

theorem jsIndexOf_neg (l : List String) (x : String) (h : x ∉ l) : jsIndexOf l x = -1 := by
  induction l with
  | nil => rfl
  | cons y rest ih =>
    have hy : ¬ y = x := fun he => h (List.mem_cons.mpr (Or.inl he.symm))
    have hr := ih (fun hm => h (List.mem_cons_of_mem y hm))
    simp [jsIndexOf, if_neg hy, hr]

theorem jsFindAfter_all (p : String → Bool) (idx : Int) :
    ∀ (l : List String) (k : Int), idx < k → jsFindAfter p idx k l = l.find? p := by
  intro l
  induction l with
  | nil => intro k _; rfl
  | cons d rest ih =>
    intro k hk
    rw [jsFindAfter]
    by_cases hp : p d = true
    · rw [if_pos ⟨hk, hp⟩, List.find?_cons_of_pos _ hp]
    · rw [if_neg (fun hand => hp hand.2), List.find?_cons_of_neg _ hp, ih (k + 1) (by omega)]

theorem jsFindAfter_drop (p : String → Bool) :
    ∀ (l : List String) (k idx : Int), k - 1 ≤ idx →
      jsFindAfter p idx k l = (l.drop (idx - k + 1).toNat).find? p := by
  intro l
  induction l with
  | nil => intro k idx _; simp [jsFindAfter]
  | cons d rest ih =>
    intro k idx h
    by_cases hlt : idx < k
    · have ht : (idx - k + 1).toNat = 0 := by omega
      rw [ht, List.drop_zero]
      exact jsFindAfter_all p idx (d :: rest) k hlt
    · have ht : (idx - k + 1).toNat = (idx - (k + 1) + 1).toNat + 1 := by omega
      rw [jsFindAfter, if_neg (fun hand => hlt hand.1), ih (k + 1) idx (by omega), ht,
        List.drop_succ_cons]

/-- Claim C3 counterexample: a menu whose only entry is a Monday side
dish has non-empty content on Monday, yet the read path queried on an
empty Wednesday contributes nothing instead of wrapping to Monday,
because the fallback scan consults only the meat and veg fields. -/
theorem blavatnik_fallback_counterexample :
    formatDayMenu ((fun d => if d = "Monday" then some ⟨"", "", "Soup"⟩ else none) "Wednesday")
        = [] ∧
      formatDayMenu ((fun d => if d = "Monday" then some ⟨"", "", "Soup"⟩ else none) "Monday")
        = ["3. Soup"] ∧
      blavRead (fun d => if d = "Monday" then some ⟨"", "", "Soup"⟩ else none) "Wednesday"
        = [] := by
  decide

/-- Claim C3 amended: when the current day has no lines, the Blavatnik
fallback scans the weekday order strictly after the current day's index
for the first day whose meat or veg field is non-empty, wrapping to the
start of the order when the forward scan fails; the chosen day is
labelled by a Next available line before its formatted lines, and the
contribution is empty exactly when no weekday has a non-empty meat or
veg field (a day carrying only a side is skipped, as the counterexample
shows). -/
theorem blavatnik_fallback_spec (menu : String → Option DayMenu) (today : String)
    (hempty : formatDayMenu (menu today) = []) :
    blavRead menu today =
      (match ((WEEKDAYS.drop ((jsIndexOf WEEKDAYS today + 1).toNat)).find?
            (fun d => hasMain (menu d))).orElse
          (fun _ => WEEKDAYS.find? (fun d => hasMain (menu d))) with
        | none => []
        | some d => ("_Next available: " ++ d ++ "_") :: formatDayMenu (menu d)) ∧
      (blavRead menu today = [] ↔ ∀ d ∈ WEEKDAYS, hasMain (menu d) = false) := by
  have hf := jsFindAfter_drop (fun d => hasMain (menu d)) WEEKDAYS 0 (jsIndexOf WEEKDAYS today)
    (by have := jsIndexOf_ge WEEKDAYS today; omega)
  simp only [Int.sub_zero] at hf
  have heq : blavRead menu today =
      (match ((WEEKDAYS.drop ((jsIndexOf WEEKDAYS today + 1).toNat)).find?
            (fun d => hasMain (menu d))).orElse
          (fun _ => WEEKDAYS.find? (fun d => hasMain (menu d))) with
        | none => []
        | some d => ("_Next available: " ++ d ++ "_") :: formatDayMenu (menu d)) := by
    unfold blavRead
    rw [hempty, if_neg (by simp : ¬([] : List String) ≠ []), hf]
  refine ⟨heq, ?_, ?_⟩
  · intro hnil
    rw [heq] at hnil
    cases ho : ((WEEKDAYS.drop ((jsIndexOf WEEKDAYS today + 1).toNat)).find?
          (fun d => hasMain (menu d))).orElse
        (fun _ => WEEKDAYS.find? (fun d => hasMain (menu d))) with
    | some d => rw [ho] at hnil; simp at hnil
    | none =>
      have h2 : WEEKDAYS.find? (fun d => hasMain (menu d)) = none := by
        cases h1 : (WEEKDAYS.drop ((jsIndexOf WEEKDAYS today + 1).toNat)).find?
            (fun d => hasMain (menu d)) with
        | some d => rw [h1] at ho; simp [Option.orElse] at ho
        | none => rw [h1] at ho; simpa [Option.orElse] using ho
      intro d hd
      simpa using List.find?_eq_none.mp h2 d hd
  · intro hall
    rw [heq]
    have h2 : WEEKDAYS.find? (fun d => hasMain (menu d)) = none :=
      List.find?_eq_none.mpr (fun x hx => by simp [hall x hx])
    have h1 : (WEEKDAYS.drop ((jsIndexOf WEEKDAYS today + 1).toNat)).find?
        (fun d => hasMain (menu d)) = none :=
      List.find?_eq_none.mpr (fun x hx => by simp [hall x (List.mem_of_mem_drop hx)])
    rw [h1, h2]
    rfl

/-- Witness for amended C3: the two worked examples of the claim, with
the second wrapping past two empty days back to Monday. -/
theorem blavatnik_fallback_spec_witness :
    blavRead (fun d => if d = "Monday" then some ⟨"", "", ""⟩ else
        if d = "Tuesday" then some ⟨"x", "", ""⟩ else none) "Monday" =
      ["_Next available: Tuesday_", "1. x"] ∧
      blavRead (fun d => if d = "Monday" then some ⟨"x", "", ""⟩ else
          if d = "Tuesday" ∨ d = "Wednesday" then some ⟨"", "", ""⟩ else none) "Wednesday" =
        ["_Next available: Monday_", "1. x"] := by
  constructor
  · rw [(blavatnik_fallback_spec (fun d => if d = "Monday" then some ⟨"", "", ""⟩ else
        if d = "Tuesday" then some ⟨"x", "", ""⟩ else none) "Monday" (by decide)).1]
    decide
  · rw [(blavatnik_fallback_spec (fun d => if d = "Monday" then some ⟨"x", "", ""⟩ else
        if d = "Tuesday" ∨ d = "Wednesday" then some ⟨"", "", ""⟩ else none) "Wednesday"
        (by decide)).1]
    decide

/-- Claim C10 counterexample: queried on Saturday with a menu whose only
entry is a Monday side dish, the claim as stated promises the labelled
Monday content, yet the read path returns the empty list, because the
fallback scan consults only the meat and veg fields. -/
theorem blavatnik_unknown_weekday_counterexample :
    ((fun d => if d = "Monday" then some (⟨"", "", "Yoghurt"⟩ : DayMenu) else none) "Saturday"
        = none) ∧
      formatDayMenu ((fun d => if d = "Monday" then some ⟨"", "", "Yoghurt"⟩ else none) "Monday")
        ≠ [] ∧
      blavRead (fun d => if d = "Monday" then some ⟨"", "", "Yoghurt"⟩ else none) "Saturday"
        = [] := by
  decide

/-- Claim C10 amended: for a weekday argument outside the configured
five, indexOf yields minus one and the forward scan therefore starts
from Monday: with the current day absent from the menu, the read path
returns the Next available label and lines of the earliest weekday whose
meat or veg field is non-empty, and a non-empty list whenever such a
weekday exists (a day carrying only a side is not eligible, as the
counterexample shows). -/
theorem blavatnik_unknown_weekday_spec (menu : String → Option DayMenu) (today : String)
    (hnm : today ∉ WEEKDAYS) (habs : menu today = none) :
    blavRead menu today =
      (match WEEKDAYS.find? (fun d => hasMain (menu d)) with
        | none => []
        | some d => ("_Next available: " ++ d ++ "_") :: formatDayMenu (menu d)) ∧
      ((WEEKDAYS.find? (fun d => hasMain (menu d))).isSome = true → blavRead menu today ≠ []) := by
  have hidx : jsIndexOf WEEKDAYS today = -1 := jsIndexOf_neg WEEKDAYS today hnm
  have hempty : formatDayMenu (menu today) = [] := by rw [habs]; rfl
  have hstep : blavRead menu today =
      (match WEEKDAYS.find? (fun d => hasMain (menu d)) with
        | none => []
        | some d => ("_Next available: " ++ d ++ "_") :: formatDayMenu (menu d)) := by
    unfold blavRead
    rw [hempty, if_neg (by simp : ¬([] : List String) ≠ []), hidx,
      jsFindAfter_all (fun d => hasMain (menu d)) (-1) WEEKDAYS 0 (by omega)]
    cases hfind : WEEKDAYS.find? (fun d => hasMain (menu d)) with
    | none => simp [Option.orElse]
    | some d => simp [Option.orElse]
  refine ⟨hstep, ?_⟩
  intro hsome
  rw [hstep]
  cases hfind : WEEKDAYS.find? (fun d => hasMain (menu d)) with
  | none => rw [hfind] at hsome; simp at hsome
  | some d => simp

/-- Witness for amended C10: on Saturday with a Tuesday-only menu the
read path returns the labelled Tuesday lines. -/
theorem blavatnik_unknown_weekday_spec_witness :
    blavRead (fun d => if d = "Tuesday" then some ⟨"Dhal", "", ""⟩ else none) "Saturday" =
      ["_Next available: Tuesday_", "1. Dhal"] := by
  rw [(blavatnik_unknown_weekday_spec
    (fun d => if d = "Tuesday" then some ⟨"Dhal", "", ""⟩ else none) "Saturday"
    (by decide) (by decide)).1]
  decide

theorem findSection_none (name : String) :
    ∀ (l : List Node), (∀ n ∈ l, isAnchor n name = false) → findSection name l = none := by
  intro l
  induction l with
  | nil => intro _; rfl
  | cons n rest ih =>
    intro h
    rw [findSection, if_neg (by simp [h n (List.mem_cons_self n rest)])]
    exact ih (fun x hx => h x (List.mem_cons_of_mem n hx))

theorem findSection_append (name : String) (anchor : Node) (post : List Node)
    (ha : isAnchor anchor name = true) :
    ∀ (pre : List Node), (∀ n ∈ pre, isAnchor n name = false) →
      findSection name (pre ++ anchor :: post) = some post := by
  intro pre
  induction pre with
  | nil => intro _; rw [List.nil_append, findSection, if_pos ha]
  | cons n rest ih =>
    intro h
    rw [List.cons_append, findSection, if_neg (by simp [h n (List.mem_cons_self n rest)])]
    exact ih (fun x hx => h x (List.mem_cons_of_mem n hx))

/-- Claim C5: extraction anchors on the first h2 whose trimmed text
contains the section name as a substring (no exact match required); with
no matching heading the slice is empty rather than an error; otherwise
the slice collects the nodes immediately after the anchor, in document
order, until the input is exhausted or an h2 is reached, and that
boundary node is excluded. -/
theorem exeter_section_extract (nodes : List Node) (name : String) :
    ((∀ n ∈ nodes, isAnchor n name = false) → sectionSlice nodes name = []) ∧
    (∀ pre anchor post, nodes = pre ++ anchor :: post →
      (∀ n ∈ pre, isAnchor n name = false) → isAnchor anchor name = true →
      post = sectionSlice nodes name ++
          post.dropWhile (fun n => !decide (n.tag = Tag.h2)) ∧
        (∀ n ∈ sectionSlice nodes name, n.tag ≠ Tag.h2) ∧
        (∀ b bs, post.dropWhile (fun n => !decide (n.tag = Tag.h2)) = b :: bs →
          b.tag = Tag.h2)) := by
  constructor
  · intro h
    unfold sectionSlice
    rw [findSection_none name nodes h]
  · intro pre anchor post hdecomp hpre ha
    have hslice : sectionSlice nodes name =
        post.takeWhile (fun n => !decide (n.tag = Tag.h2)) := by
      unfold sectionSlice
      rw [hdecomp, findSection_append name anchor post ha pre hpre]
    refine ⟨?_, ?_, ?_⟩
    · rw [hslice, List.takeWhile_append_dropWhile]
    · intro n hn
      rw [hslice] at hn
      simpa using List.mem_takeWhile_imp hn
    · intro b bs hb
      simpa using dropWhile_head_false (fun n => !decide (n.tag = Tag.h2)) post b bs hb

/-- Witness for C5: on a concrete page the nodes after the anchor are the
extracted slice followed by the next h2 and everything after it. -/
theorem exeter_section_extract_witness :
    [⟨Tag.h3, "Main Course", []⟩, ⟨Tag.ul, "", ["Salad Bar"]⟩, ⟨Tag.h2, "Hall", []⟩,
        ⟨Tag.p, "Hall content", []⟩] =
      sectionSlice
          [⟨Tag.h2, "Other", []⟩, ⟨Tag.h2, "Dakota Café", []⟩, ⟨Tag.h3, "Main Course", []⟩,
            ⟨Tag.ul, "", ["Salad Bar"]⟩, ⟨Tag.h2, "Hall", []⟩, ⟨Tag.p, "Hall content", []⟩]
          "Dakota" ++
        ([⟨Tag.h3, "Main Course", []⟩, ⟨Tag.ul, "", ["Salad Bar"]⟩, ⟨Tag.h2, "Hall", []⟩,
            (⟨Tag.p, "Hall content", []⟩ : Node)].dropWhile (fun n => !decide (n.tag = Tag.h2))) :=
  ((exeter_section_extract
      [⟨Tag.h2, "Other", []⟩, ⟨Tag.h2, "Dakota Café", []⟩, ⟨Tag.h3, "Main Course", []⟩,
        ⟨Tag.ul, "", ["Salad Bar"]⟩, ⟨Tag.h2, "Hall", []⟩, ⟨Tag.p, "Hall content", []⟩]
      "Dakota").2 [⟨Tag.h2, "Other", []⟩] ⟨Tag.h2, "Dakota Café", []⟩
      [⟨Tag.h3, "Main Course", []⟩, ⟨Tag.ul, "", ["Salad Bar"]⟩, ⟨Tag.h2, "Hall", []⟩,
        ⟨Tag.p, "Hall content", []⟩] rfl (by decide) (by decide)).1

/-- Claim C7: a heading, explicit or implicit, whose trimmed text matches
the skip-section pattern sets the skipping flag and itself emits no
line; while the flag is set, list nodes and non-heading text nodes are
discarded; and the next heading whose text does not match the pattern
clears the flag and emits its bold line, so later subsections
contribute again. -/
theorem exeter_skip_section (today : String) (sk : Bool) (n : Node) (rest : List Node) :
    (isHeadingNode n rest = true → skipSectionTest (jsTrimStr n.text) = true →
      classify today sk (n :: rest) = classify today true rest) ∧
    (n.tag = Tag.ul → classify today true (n :: rest) = classify today true rest) ∧
    (n.tag = Tag.p → isHeadingNode n rest = false →
      classify today true (n :: rest) = classify today true rest) ∧
    (isHeadingNode n rest = true → skipSectionTest (jsTrimStr n.text) = false →
      jsTrimStr n.text ≠ "" →
      classify today sk (n :: rest) =
        ("\n*" ++ jsTrimStr n.text ++ "*") :: classify today false rest) := by
  refine ⟨?_, ?_, ?_, ?_⟩
  · intro hh hs
    have htag : n.tag = Tag.h3 ∨ n.tag = Tag.p := by
      unfold isHeadingNode at hh
      simp only [Bool.or_eq_true, Bool.and_eq_true, decide_eq_true_eq] at hh
      rcases hh with h | h
      · exact Or.inl h
      · exact Or.inr h.1.1.1.1
    have hne : jsTrimStr n.text ≠ "" := by
      intro h0
      rw [h0] at hs
      exact absurd hs (by decide)
    rw [classify, if_pos htag, if_neg hne, if_pos ⟨hh, hs⟩]
  · intro hu
    rw [classify, if_neg (by simp [hu]), if_pos hu, if_pos rfl]
  · intro hp hnh
    rw [classify, if_pos (Or.inr hp)]
    by_cases hte : jsTrimStr n.text = ""
    · rw [if_pos hte]
    · rw [if_neg hte, if_neg (by simp [hnh]), if_neg (by simp [hnh]), if_neg (by simp)]
  · intro hh hs hne
    have htag : n.tag = Tag.h3 ∨ n.tag = Tag.p := by
      unfold isHeadingNode at hh
      simp only [Bool.or_eq_true, Bool.and_eq_true, decide_eq_true_eq] at hh
      rcases hh with h | h
      · exact Or.inl h
      · exact Or.inr h.1.1.1.1
    rw [classify, if_pos htag, if_neg hne, if_neg (by simp [hs]), if_pos hh]

/-- Witness for C7: an implicit Panini heading suppresses itself and its
list, and the following explicit heading contributes normally. -/
theorem exeter_skip_section_witness :
    classify "Monday" false
        [⟨Tag.p, "Panini", []⟩, ⟨Tag.ul, "", ["Halloumi"]⟩, ⟨Tag.h3, "Main Course", []⟩,
          ⟨Tag.ul, "", ["Soup of the Day"]⟩] =
      ["\n*Main Course*", "• Soup of the Day"] := by
  rw [(exeter_skip_section "Monday" false ⟨Tag.p, "Panini", []⟩ _).1 (by decide) (by decide)]
  rw [(exeter_skip_section "Monday" true ⟨Tag.ul, "", ["Halloumi"]⟩ _).2.1 rfl]
  rw [(exeter_skip_section "Monday" true ⟨Tag.h3, "Main Course", []⟩ _).2.2.2 (by decide)
    (by decide) (by decide)]
  decide

end LunchMenu
